import Mathlib

/-!
Verification of the ip-denylist lookup service core: the range flattener
(`loadToRedis.js` / `exports.load`), the sorted-index lookup engine
(`lookupIP`), the CSV merger validation (`launch.js`), the update lock
(`updateLock.js`), and the result cache.  All definitions are shallow
embeddings of the JavaScript source; JSON (de)serialization and the
`ip-utils` / JS standard library are modelled at the structured level as
described in each doc comment.
-/

set_option maxHeartbeats 1000000

/-- A tag as carried on a CSV line.  Modelled from the spec: in the source a
tag travels as its exact JSON string; the spec's data model says a tag is a
record with a mandatory `type` field plus remaining fields.  We model the JSON
string as its parsed form: the `type` field and the serialized remainder
`rest`; equality of `Tag` models equality of the exact JSON form. -/
structure Tag where
  type : String
  rest : String
deriving DecidableEq

/-- One parsed row of the merged CSV: `start_int|end_int|list`
(the `list` column holds the tag). -/
structure InputRec where
  start_int : Int
  end_int : Int
  list : Tag
deriving DecidableEq

/-- A sweep event, as pushed onto `scratch`:
`{n: r.start_int, a: r.list, e: false}` or `{n: r.end_int, a: r.list, e: true}`. -/
structure Event where
  n : Int
  a : Tag
  e : Bool
deriving DecidableEq

/-- The start event of an input record. -/
def startEv (r : InputRec) : Event := ⟨r.start_int, r.list, false⟩

/-- The end event of an input record. -/
def endEv (r : InputRec) : Event := ⟨r.end_int, r.list, true⟩

/-- The `scratch` array before sorting: a start and an end event per row,
in row order. -/
def eventsOf : List InputRec → List Event
  | [] => []
  | r :: rs => startEv r :: endEv r :: eventsOf rs

/-- The comparator used to sort `scratch`: ascending `n`, ties broken with
start events (`e = false`) before end events (`e = true`). -/
def eventLE (x y : Event) : Prop :=
  x.n < y.n ∨ (x.n = y.n ∧ (x.e → y.e))

instance : DecidableRel eventLE := fun x y => by
  unfold eventLE; infer_instance

instance : IsTotal Event eventLE := by
  constructor
  intro x y
  rcases lt_trichotomy x.n y.n with h | h | h
  · exact Or.inl (Or.inl h)
  · cases hx : x.e <;> cases hy : y.e
    · exact Or.inl (Or.inr ⟨h, by simp [hx, hy]⟩)
    · exact Or.inl (Or.inr ⟨h, by simp [hx, hy]⟩)
    · exact Or.inr (Or.inr ⟨h.symm, by simp [hx, hy]⟩)
    · exact Or.inl (Or.inr ⟨h, by simp [hx, hy]⟩)
  · exact Or.inr (Or.inl h)

instance : IsTrans Event eventLE := by
  constructor
  intro x y z hxy hyz
  rcases hxy with h1 | ⟨h1, h1e⟩ <;> rcases hyz with h2 | ⟨h2, h2e⟩
  · exact Or.inl (h1.trans h2)
  · exact Or.inl (h2 ▸ h1)
  · exact Or.inl (h1 ▸ h2)
  · exact Or.inr ⟨h1.trans h2, fun h => h2e (h1e h)⟩

/-- `Array.prototype.sort` with the comparator above.  ECMAScript requires the
sort to be stable, so insertion sort computes the same list as the source. -/
def sortEvents (l : List Event) : List Event := List.insertionSort eventLE l

/-- One step of the active list `s`: a start pushes the tag
(`s.push(cur.a)`), an end removes the first occurrence
(`indexOf` + `splice`). -/
def stepActive (s : List Tag) (cur : Event) : List Tag :=
  if cur.e = false then s ++ [cur.a] else s.erase cur.a

/-- Lower bound of the segment associated with `cur`:
`n = cur.n` for a start, `cur.n + 1` for an end. -/
def segN (cur : Event) : Int := if cur.e = false then cur.n else cur.n + 1

/-- Upper bound of the segment ending at `nex`:
`m = nex.n - 1` for a start, `nex.n` for an end. -/
def segM (nex : Event) : Int := if nex.e = false then nex.n - 1 else nex.n

/-- First-occurrence deduplication with an accumulator of already seen tags;
`jsSetDedup` below models `[...new Set(s)]`. -/
def jsSetDedupAux (seen : List Tag) : List Tag → List Tag
  | [] => []
  | t :: ts =>
      if t ∈ seen then jsSetDedupAux seen ts
      else t :: jsSetDedupAux (t :: seen) ts

/-- `[...new Set(s)]`: keeps the first occurrence of each element, in order. -/
def jsSetDedup (s : List Tag) : List Tag := jsSetDedupAux [] s

/-- `if (!data[type]) data[type] = []; data[type].push(j)` on the insertion
ordered object `data`, modelled as an association list. -/
def pushTag : List (String × List String) → String → String → List (String × List String)
  | [], ty, j => [(ty, [j])]
  | (k, v) :: ds, ty, j =>
      if k = ty then (k, v ++ [j]) :: ds
      else (k, v) :: pushTag ds ty j

/-- The payload object built from the (already deduplicated) active list:
for each tag, `JSON.parse` it, strip the `type` field and push the remainder
under `data[type]`. -/
def buildData (s : List Tag) : List (String × List String) :=
  s.foldl (fun d t => pushTag d t.type t.rest) []

/-- Property access `data[ty]` on the payload object (`[]` when absent,
matching the iteration of an absent key as an empty list). -/
def getType (data : List (String × List String)) (ty : String) : List String :=
  match data.find? (fun p => p.1 == ty) with
  | some p => p.2
  | none => []

/-- An output record `(n, m, data)`, serialized in the source as
`n|m|JSON.stringify(data)` and written at score `m`. -/
structure OutRec where
  n : Int
  m : Int
  data : List (String × List String)
deriving DecidableEq

/-- The flattening loop over the sorted event list (`for k < length - 1`):
update the active list with `cur`, compute the segment `[n, m]` to the next
event, and when `n ≤ m` and the active list is non-empty, deduplicate the
active list in place (the source reassigns `s`) and emit a record. -/
def flattenGo : List Tag → List Event → List OutRec
  | _, [] => []
  | _, [_] => []
  | s, cur :: nex :: rest =>
      let s1 := stepActive s cur
      if segN cur ≤ segM nex ∧ s1 ≠ [] then
        let s2 := jsSetDedup s1
        ⟨segN cur, segM nex, buildData s2⟩ :: flattenGo s2 (nex :: rest)
      else
        flattenGo s1 (nex :: rest)

/-- The flattener on a sorted event list, starting from an empty active list. -/
def flatten (evs : List Event) : List OutRec := flattenGo [] evs

/-- End-to-end flattening of the parsed CSV rows: build events, sort, sweep. -/
def flattenRecs (inputs : List InputRec) : List OutRec :=
  flatten (sortEvents (eventsOf inputs))

/-- The `zadd` arguments issued by the loader: each record is written to the
temporary sorted set at score `m` (its end coordinate). -/
def loadEntries (inputs : List InputRec) : List (Int × OutRec) :=
  (flattenRecs inputs).map (fun r => (r.m, r))

/-- The input interval `[start_int, end_int]` covers coordinate `x`. -/
def covers (r : InputRec) (x : Int) : Prop :=
  r.start_int ≤ x ∧ x ≤ r.end_int

instance (r : InputRec) (x : Int) : Decidable (covers r x) := by
  unfold covers; infer_instance

/-- The output record covers coordinate `x`. -/
def inRec (rec : OutRec) (x : Int) : Prop :=
  rec.n ≤ x ∧ x ≤ rec.m

instance (rec : OutRec) (x : Int) : Decidable (inRec rec x) := by
  unfold inRec; infer_instance

/-- No two rows carrying the same tag have intersecting intervals.  This is
the hypothesis under which the sweep is faithful: the in-place `new Set`
collapse of the active list never loses an open interval. -/
def SameTagDisjoint (inputs : List InputRec) : Prop :=
  inputs.Pairwise (fun r1 r2 =>
    r1.list = r2.list → r1.end_int < r2.start_int ∨ r2.end_int < r1.start_int)

instance (inputs : List InputRec) : Decidable (SameTagDisjoint inputs) := by
  unfold SameTagDisjoint
  exact List.instDecidablePairwise inputs

/-! ### Sorted-index lookup engine (`lookupIP` in serve.js) -/

/-- `if (!result.list) result.list = []` applied to the parsed payload: adds
an empty `list` entry (at the end, as JS property creation does) when the
payload has no `list` key; payload values are arrays, hence always truthy. -/
def ensureList (data : List (String × List String)) : List (String × List String) :=
  match data.find? (fun p => p.1 == "list") with
  | some _ => data
  | none => data ++ [("list", [])]

/-- Score order of the sorted set (ties between equal scores are broken by
member lexicographic order in the store; all scores are distinct in every
statement below, so score order suffices). -/
def scoreLE (e1 e2 : Int × OutRec) : Prop := e1.1 ≤ e2.1

instance : DecidableRel scoreLE := fun e1 e2 => by
  unfold scoreLE; infer_instance

instance : IsTotal (Int × OutRec) scoreLE := by
  constructor; intro a b; exact le_total a.1 b.1

instance : IsTrans (Int × OutRec) scoreLE := by
  constructor; intro a b c; exact le_trans

/-- The sorted set as the store keeps it: members ordered by score. -/
def zsetOf (entries : List (Int × OutRec)) : List (Int × OutRec) :=
  List.insertionSort scoreLE entries

/-- `ZRANGEBYSCORE key q +inf LIMIT 0 1`: the member with the lowest
score `≥ q`. -/
def zlowest (entries : List (Int × OutRec)) (q : Int) : Option (Int × OutRec) :=
  ((zsetOf entries).filter (fun p => decide (q ≤ p.1))).head?

/-- The index lookup of `lookupIP` (DroneBL disabled, cache aside): query the
lowest-score member with score `≥ q`; if none, `null`; otherwise parse it as
`(startInt, endInt, lists)` (serialization round-trip modelled structurally,
per the spec's round-trip law R2) and return the payload — with the `list`
key ensured — exactly when `startInt ≤ q ≤ endInt`, else `null`. -/
def lookupFresh (entries : List (Int × OutRec)) (q : Int) :
    Option (List (String × List String)) :=
  match zlowest entries q with
  | none => none
  | some p => if p.2.n ≤ q ∧ q ≤ p.2.m then some (ensureList p.2.data) else none

/-- Dotted-quad to integer (`ip2int` in loadToRedis.js, `ipTools.toLong` in
serve.js): big-endian octets.  For octets `< 256` the JS `(x << 8) + o >>> 0`
computation never exceeds `2^32 - 1`, so plain arithmetic is exact. -/
def ip2int (o1 o2 o3 o4 : Nat) : Nat :=
  ((o1 * 256 + o2) * 256 + o3) * 256 + o4

/-! ### Result cache around the lookup (`lookupIP`) -/

/-- A cache value for the key `<prefix>cache:<ip>`: the literal string
`"null"`, a JSON serialization of a payload, or a corrupted entry on which
`JSON.parse` throws (JSON modelled structurally). -/
inductive CacheEntry
  | nullMark
  | good (p : List (String × List String))
  | bad
deriving DecidableEq

/-- Observable outcome of one cached lookup: the returned result, whether the
sorted index was queried, the attempted cache write (value and TTL seconds),
and whether that write was stored. -/
structure LookupOutcome where
  result : Option (List (String × List String))
  queriedIndex : Bool
  cacheWrite : Option (CacheEntry × Nat)
  cacheStored : Bool
deriving DecidableEq

/-- How `lookupIP` serializes a result for the cache: `'null'` for a null
result, `JSON.stringify(result)` otherwise. -/
def encodeResult : Option (List (String × List String)) → CacheEntry
  | none => .nullMark
  | some p => .good p

/-- `const cacheTTL = 48 * 60 * 60` seconds. -/
def cacheTTL : Nat := 48 * 60 * 60

/-- `lookupIP` with caching: a cached `'null'` or parseable entry returns
immediately without touching the index; a corrupted entry falls through to a
fresh lookup; a fresh result is written back with `cacheTTL` via
`setex(...).catch(...)`, whose failure (`writeFails`) is swallowed and never
alters the returned result. -/
def lookupWithCache (entries : List (Int × OutRec)) (q : Int)
    (cached : Option CacheEntry) (writeFails : Bool) : LookupOutcome :=
  match cached with
  | some .nullMark => ⟨none, false, none, false⟩
  | some (.good p) => ⟨some p, false, none, false⟩
  | some .bad =>
      let r := lookupFresh entries q
      ⟨r, true, some (encodeResult r, cacheTTL), !writeFails⟩
  | none =>
      let r := lookupFresh entries q
      ⟨r, true, some (encodeResult r, cacheTTL), !writeFails⟩

/-! ### Loader failure handling (`exports.load` in loadToRedis.js) -/

/-- The distinct abort reasons of the loader. -/
inductive LoadError
  | parseError
  | pipelineError
  | emptyTemp
  | renameError
  | sizeMismatch
deriving DecidableEq

deriving instance DecidableEq for Except

/-- Injected faults for the fallible store operations: a CSV parse / file
read error, failed pipeline commands, a failed `RENAME`, and the cardinality
observed by the post-rename `ZCARD` (`none` = the true cardinality; a
different value models a concurrent mutator). -/
structure Faults where
  parseFail : Bool
  writeFail : Bool
  renameFail : Bool
  postRenameSize : Option Nat
deriving DecidableEq

/-- The two keys of the store the loader touches: the live sorted set
`<prefix>ranges` and the temporary key; `none` means the key is absent. -/
structure RedisStore where
  ranges : Option (List (Int × OutRec))
  temp : Option (List (Int × OutRec))
deriving DecidableEq

/-- The loader: delete the temp key, parse the CSV, flatten, `zadd` every
record to the temp key, surface pipeline errors, abort when the temp key is
empty, `RENAME` temp over the live key, and verify the post-rename
cardinality.  Every `catch` path deletes the temp key and rejects; nothing
restores the live key. -/
def loadModel (inputs : List InputRec) (f : Faults) (st : RedisStore) :
    Except LoadError Unit × RedisStore :=
  if f.parseFail then (.error .parseError, { st with temp := none })
  else
    let entries := loadEntries inputs
    if f.writeFail && !entries.isEmpty then
      (.error .pipelineError, { st with temp := none })
    else if entries.length = 0 then
      (.error .emptyTemp, { st with temp := none })
    else if f.renameFail then
      (.error .renameError, { st with temp := none })
    else
      let observed := f.postRenameSize.getD entries.length
      if observed ≠ entries.length then
        (.error .sizeMismatch, { ranges := some entries, temp := none })
      else
        (.ok (), { ranges := some entries, temp := none })

/-! ### Strings as character lists (JS string primitives) -/

/-- `String.prototype.trim()` modelled on the character list. -/
def jsTrimCh (cs : List Char) : List Char :=
  ((cs.dropWhile Char.isWhitespace).reverse.dropWhile Char.isWhitespace).reverse

/-- `String.prototype.split(sep)` for a one-character separator: always at
least one (possibly empty) field. -/
def splitOnChar (sep : Char) : List Char → List (List Char)
  | [] => [[]]
  | c :: cs =>
      match splitOnChar sep cs with
      | [] => [[]]
      | h :: t => if c = sep then [] :: h :: t else (c :: h) :: t

/-- Leading decimal digits folded to a number; `none` when there is no
leading digit (`parseInt` yields `NaN`). -/
def parseDigits (cs : List Char) : Option Nat :=
  match cs.takeWhile Char.isDigit with
  | [] => none
  | ds => some (ds.foldl (fun a c => a * 10 + (c.toNat - 48)) 0)

/-- `parseInt(s, 10)`: skip leading whitespace, optional sign, leading
decimal digits; `none` models `NaN`. -/
def jsParseInt10 (cs : List Char) : Option Int :=
  match cs.dropWhile Char.isWhitespace with
  | '-' :: t => (parseDigits t).map (fun v => -(v : Int))
  | '+' :: t => (parseDigits t).map (fun v => (v : Int))
  | t => (parseDigits t).map (fun v => (v : Int))

/-- Leading hexadecimal digits folded to a number; `none` when there is no
leading hex digit. -/
def parseHexDigits (cs : List Char) : Option Nat :=
  match cs.takeWhile (fun c => c.isDigit || ('a' ≤ c && c ≤ 'f') || ('A' ≤ c && c ≤ 'F')) with
  | [] => none
  | ds => some (ds.foldl (fun a c =>
      a * 16 + (if c.isDigit then c.toNat - 48
                else if 'a' ≤ c && c ≤ 'f' then c.toNat - 87
                else c.toNat - 55)) 0)

/-- `parseInt(s)` with no radix argument, as in launch.js: like radix 10 but
a `0x`/`0X` whose hex digits follow is parsed as hexadecimal; only the
`NaN`-ness of the value is consumed by the validator. -/
def jsParseIntNoRadix (cs : List Char) : Option Int :=
  match cs.dropWhile Char.isWhitespace with
  | '-' :: '0' :: 'x' :: t => (parseHexDigits t).map (fun v => -(v : Int))
  | '-' :: '0' :: 'X' :: t => (parseHexDigits t).map (fun v => -(v : Int))
  | '+' :: '0' :: 'x' :: t => (parseHexDigits t).map (fun v => (v : Int))
  | '+' :: '0' :: 'X' :: t => (parseHexDigits t).map (fun v => (v : Int))
  | '0' :: 'x' :: t => (parseHexDigits t).map (fun v => (v : Int))
  | '0' :: 'X' :: t => (parseHexDigits t).map (fun v => (v : Int))
  | '-' :: t => (parseDigits t).map (fun v => -(v : Int))
  | '+' :: t => (parseDigits t).map (fun v => (v : Int))
  | t => (parseDigits t).map (fun v => (v : Int))

/-! ### Distributed update lock (updateLock.js) -/

/-- JS falsiness of a nullable string value (`!lockValue`): `null`,
`undefined` and the empty string are falsy. -/
def jsFalsyStr : Option (List Char) → Bool
  | none => true
  | some s => s.isEmpty

/-- `releaseLock(lockKey, lockValue)`: refuse a falsy value; otherwise run
the compare-and-delete Lua script against the whitespace-trimmed caller
value, returning whether the key was deleted together with the resulting
stored value. -/
def releaseLock (stored : Option (List Char)) (lockValue : Option (List Char)) :
    Bool × Option (List Char) :=
  if jsFalsyStr lockValue then (false, stored)
  else
    let t := jsTrimCh (lockValue.getD [])
    match stored with
    | some cur => if cur = t then (true, none) else (false, some cur)
    | none => (false, none)

/-- `isLockStale(lockKey)`: no lock is not stale; split the trimmed value on
`-`, parse the first part as a base-10 integer (`NaN` means not stale); the
current process's own PID is never stale; otherwise stale exactly when the
probed process (`alive`, modelling the `process.kill(pid, 0)` probe) is dead. -/
def isLockStale (stored : Option (List Char)) (selfPid : Int) (alive : Int → Bool) : Bool :=
  match stored with
  | none => false
  | some v =>
      let parts := splitOnChar '-' (jsTrimCh v)
      match jsParseInt10 (parts.headD []) with
      | none => false
      | some pid => if pid = selfPid then false else !(alive pid)

/-- `acquireLock`: an existing non-stale lock is left alone and acquisition
fails; a stale lock is deleted and the `SET ... NX` then succeeds on the now
absent key; `newValue` models the fresh `"<pid>-<Date.now()>"` string. -/
def acquireLock (stored : Option (List Char)) (selfPid : Int) (alive : Int → Bool)
    (newValue : List Char) : Bool × Option (List Char) :=
  match stored with
  | some v =>
      if isLockStale (some v) selfPid alive then (true, some newValue)
      else (false, some v)
  | none => (true, some newValue)

/-! ### Merger validation (`validateCsvFile` and the rename step in launch.js) -/

/-- `pat` is a prefix of `s`. -/
def isPrefixCh : List Char → List Char → Bool
  | [], _ => true
  | _ :: _, [] => false
  | c :: cs, d :: ds => c = d && isPrefixCh cs ds

/-- `String.prototype.includes(pat)`: `pat` occurs as a contiguous substring. -/
def containsSub : List Char → List Char → Bool
  | s, pat =>
      isPrefixCh pat s ||
        match s with
        | [] => false
        | _ :: cs => containsSub cs pat

/-- The lines `readline` yields from the file content: split on newline; the
final fragment after the last newline is a line only when non-empty. -/
def fileLines (content : List Char) : List (List Char) :=
  if content.isEmpty then []
  else
    let parts := splitOnChar '\n' content
    if parts.getLast? = some [] then parts.dropLast else parts

/-- The header check of line 1: it must contain `start_int`, `end_int` and
`list`. -/
def headerOkB (l : List Char) : Bool :=
  containsSub l "start_int".data && containsSub l "end_int".data && containsSub l "list".data

/-- The per-line check applied to data lines: exactly three `|`-separated
fields whose first two parse as integers (`parseInt` without radix). -/
def dataLineOkB (l : List Char) : Bool :=
  let parts := splitOnChar '|' l
  parts.length = 3 &&
    (jsParseIntNoRadix (parts.headD [])).isSome &&
    (jsParseIntNoRadix (parts.getD 1 [])).isSome

/-- `validateCsvFile(file)`: the file must exist, be non-empty, have size at
least 20 bytes, carry the header on line 1, have at least one data line, and
every one of the data lines at line numbers 2 through 10 (the first nine data
lines) must pass `dataLineOkB`.  Content is ASCII, so byte size equals the
character count. -/
def validateCsvFile (file : Option (List Char)) : Bool :=
  match file with
  | none => false
  | some content =>
      if content.length = 0 then false
      else if content.length < 20 then false
      else
        let ls := fileLines content
        headerOkB (ls.headD []) &&
          ((ls.drop 1).take 9).all dataLineOkB &&
          decide (2 ≤ ls.length)

/-- The CSV files on disk: the live merged CSV and its `.backup`. -/
structure FsState where
  live : Option (List Char)
  backup : Option (List Char)
deriving DecidableEq

/-- The merger's final step on the assembled temporary file: validate it;
on failure the update fails; on success rename the live CSV (when present)
to `.backup` and rename the temporary into place. -/
def processStep (merged : List Char) (fs : FsState) : Except String FsState :=
  if validateCsvFile (some merged) then
    .ok { live := some merged,
          backup := match fs.live with
                    | some c => some c
                    | none => fs.backup }
  else .error "CSV validation failed"

/-! ### Sweep-line bookkeeping used by the flattener proofs -/

/-- A row is open at a split of the sorted event list: its start event is
among the processed events and its end event is still pending. -/
def openAt (done todo : List Event) (r : InputRec) : Prop :=
  startEv r ∈ done ∧ endEv r ∈ todo

instance (done todo : List Event) (r : InputRec) : Decidable (openAt done todo r) := by
  unfold openAt; infer_instance

/-- Number of open rows carrying tag `t` at a split. -/
def countOpen (inputs : List InputRec) (done todo : List Event) (t : Tag) : Nat :=
  inputs.countP (fun r => decide (openAt done todo r ∧ r.list = t))

/-- Number of rows whose start event is `ev`. -/
def startsAt (inputs : List InputRec) (ev : Event) : Nat :=
  inputs.countP (fun r => decide (startEv r = ev))

/-- Number of rows whose end event is `ev`. -/
def endsAt (inputs : List InputRec) (ev : Event) : Nat :=
  inputs.countP (fun r => decide (endEv r = ev))

/-! ### Concrete example inputs -/

/-- Tag `T1` of boundary case B3. -/
def tagT1 : Tag := ⟨"list", "T1"⟩

/-- Tag `T2` of boundary case B3. -/
def tagT2 : Tag := ⟨"list", "T2"⟩

/-- The coincident-endpoint inputs `[1,5,T1]` and `[5,10,T2]`. -/
def exC4 : List InputRec := [⟨1, 5, tagT1⟩, ⟨5, 10, tagT2⟩]

/-- A tag appearing on two overlapping rows. -/
def tagT : Tag := ⟨"list", "T"⟩

/-- A second, distinct tag. -/
def tagU : Tag := ⟨"list", "U"⟩

/-- Two overlapping rows with the identical tag: `[1,10,T]` and `[2,5,T]`. -/
def exC1 : List InputRec := [⟨1, 10, tagT⟩, ⟨2, 5, tagT⟩]

/-- Overlapping same-tag rows plus a distinct-tag row `[3,8,U]`. -/
def exC2 : List InputRec := [⟨1, 10, tagT⟩, ⟨2, 5, tagT⟩, ⟨3, 8, tagU⟩]

/-- A single row whose tag type is not `list`. -/
def exC3 : List InputRec := [⟨1, 5, ⟨"cloud", "X"⟩⟩]

/-- Two overlapping rows with distinct tags, satisfying the proviso. -/
def exC2W : List InputRec := [⟨1, 10, tagT⟩, ⟨3, 8, tagU⟩]

/-- A live store holding one record, used to observe what a failing load
leaves behind. -/
def c5st : RedisStore := ⟨some [(5, ⟨1, 5, [("cloud", ["X"])]⟩)], none⟩

/-- A non-empty input for the post-rename mismatch scenario. -/
def c6in : List InputRec := [⟨1, 5, ⟨"cloud", "X"⟩⟩]

/-- Faults injecting a post-rename cardinality of 0 (a concurrent mutator). -/
def c6f : Faults := ⟨false, false, false, some 0⟩

/-- The pre-update store for the post-rename mismatch scenario. -/
def c6st : RedisStore := ⟨some [(99, ⟨7, 99, [("list", ["old"])]⟩)], none⟩

/-- A merged CSV whose first nine data lines are well formed and whose tenth
data line is malformed. -/
def c9pass : List Char :=
  ("start_int|end_int|list\n1|1|a\n2|2|a\n3|3|a\n4|4|a\n5|5|a\n6|6|a\n7|7|a\n8|8|a\n9|9|a\nbadline").data

/-! ### Claim C4: start-before-end tie-break, boundary case B3 -/

/-- C4: at the shared coordinate 5 the event sort places the start of
`[5,10,T2]` before the end of `[1,5,T1]`, and flattening `[1,5,T1]`,
`[5,10,T2]` emits exactly `[1,4:{T1}]`, `[5,5:{T1,T2}]`, `[6,10:{T2}]`. -/
theorem c4_tie_break_b3 :
    sortEvents (eventsOf exC4) =
      [⟨1, tagT1, false⟩, ⟨5, tagT2, false⟩, ⟨5, tagT1, true⟩, ⟨10, tagT2, true⟩] ∧
    flattenRecs exC4 =
      [⟨1, 4, [("list", ["T1"])]⟩,
       ⟨5, 5, [("list", ["T1", "T2"])]⟩,
       ⟨6, 10, [("list", ["T2"])]⟩] := by
  decide

/-! ### Claim C5: empty input -/

/-- C5 counterexample: on empty input the loader does not produce an empty
live index — it aborts with an error and the previous live index (here a
non-empty one) survives unchanged. -/
theorem c5_counterexample :
    (loadModel [] ⟨false, false, false, none⟩ c5st).1 ≠ .ok () ∧
    (loadModel [] ⟨false, false, false, none⟩ c5st).2.ranges =
      some [(5, ⟨1, 5, [("cloud", ["X"])]⟩)] := by
  decide

/-- C5 (amended): on empty input the loader fails with the empty-temp-key
error, deleting the temporary key and leaving the live index unchanged; a
lookup against an empty index returns `NotFound`. -/
theorem load_empty_input (f : Faults) (st : RedisStore) (h : f.parseFail = false) :
    loadModel [] f st = (.error .emptyTemp, { ranges := st.ranges, temp := none }) ∧
    ∀ q : Int, lookupFresh [] q = none := by
  constructor
  · simp [loadModel, h, loadEntries, flattenRecs, flatten, sortEvents, eventsOf,
      List.insertionSort, flattenGo]
  · intro q
    rfl

/-- C5 witness: the amended statement at a concrete fault setting and store. -/
theorem load_empty_input_witness :
    loadModel [] ⟨false, true, true, some 3⟩ c5st =
      (.error .emptyTemp, { ranges := c5st.ranges, temp := none }) ∧
    ∀ q : Int, lookupFresh [] q = none :=
  load_empty_input ⟨false, true, true, some 3⟩ c5st rfl

/-! ### Claim C6: atomicity of the loader on failure -/

/-- C6 counterexample: a post-rename cardinality mismatch aborts the update
and deletes the temporary key, but the live index is not left unchanged —
the rename has already replaced it with the new dataset. -/
theorem c6_counterexample :
    (loadModel c6in c6f c6st).1 = .error .sizeMismatch ∧
    (loadModel c6in c6f c6st).2.ranges ≠ c6st.ranges ∧
    (loadModel c6in c6f c6st).2.temp = none := by
  decide

/-- C6 (amended): a parse error, pipeline write error, empty temporary key
or rename failure aborts the update with the corresponding error, deletes
the temporary key and leaves the live index unchanged; a post-rename
cardinality mismatch aborts the update and deletes the temporary key, but
the live index then holds the newly renamed dataset, not the previous one. -/
theorem load_failure_atomicity (inputs : List InputRec) (f : Faults) (st : RedisStore) :
    (f.parseFail = true →
      loadModel inputs f st = (.error .parseError, { ranges := st.ranges, temp := none })) ∧
    (f.parseFail = false → f.writeFail = true → loadEntries inputs ≠ [] →
      loadModel inputs f st = (.error .pipelineError, { ranges := st.ranges, temp := none })) ∧
    (f.parseFail = false → loadEntries inputs = [] →
      loadModel inputs f st = (.error .emptyTemp, { ranges := st.ranges, temp := none })) ∧
    (f.parseFail = false → f.writeFail = false → loadEntries inputs ≠ [] → f.renameFail = true →
      loadModel inputs f st = (.error .renameError, { ranges := st.ranges, temp := none })) ∧
    (f.parseFail = false → f.writeFail = false → f.renameFail = false → loadEntries inputs ≠ [] →
      f.postRenameSize.getD (loadEntries inputs).length ≠ (loadEntries inputs).length →
      loadModel inputs f st =
        (.error .sizeMismatch, { ranges := some (loadEntries inputs), temp := none })) := by
  refine ⟨fun h1 => ?_, fun h1 h2 h3 => ?_, fun h1 h2 => ?_, fun h1 h2 h3 h4 => ?_,
    fun h1 h2 h3 h4 h5 => ?_⟩
  · simp [loadModel, h1]
  · simp [loadModel, h1, h2, h3]
  · simp [loadModel, h1, h2]
  · simp [loadModel, h1, h2, h3, h4]
  · simp [loadModel, h1, h2, h3, h4, h5]

/-- C6 witness: the parse-error branch of the amended statement at a concrete
input. -/
theorem load_failure_atomicity_witness :
    loadModel c6in ⟨true, false, false, none⟩ c6st =
      (.error .parseError, { ranges := c6st.ranges, temp := none }) :=
  (load_failure_atomicity c6in ⟨true, false, false, none⟩ c6st).1 rfl

/-! ### Claim C7: compare-and-delete lock release -/

/-- C7 counterexample: with an empty string stored and the identical empty
string supplied, the stored value equals the caller's value, yet
`releaseLock` does not delete the lock and returns `false` (the falsy-value
guard fires first). -/
theorem c7_counterexample :
    releaseLock (some "".data) (some "".data) = (false, some "".data) ∧
    ¬(releaseLock (some "".data) (some "".data)).1 := by
  decide

/-- C7 (amended): `releaseLock` deletes the lock and returns `true` exactly
when the caller's value is a non-empty string and the stored value equals
its whitespace-trimmed form; in every other case it returns `false` and
leaves the stored lock unchanged. -/
theorem releaseLock_characterization (st lv : Option (List Char)) :
    (releaseLock st lv = (true, none) ↔
      ∃ v, lv = some v ∧ v ≠ [] ∧ st = some (jsTrimCh v)) ∧
    ((releaseLock st lv).1 = false → (releaseLock st lv).2 = st) := by
  constructor
  · constructor
    · intro h
      match lv with
      | none => simp [releaseLock, jsFalsyStr] at h
      | some v =>
        match st with
        | none =>
          by_cases hv : v.isEmpty <;> simp [releaseLock, jsFalsyStr, hv] at h
        | some cur =>
          by_cases hv : v.isEmpty
          · simp [releaseLock, jsFalsyStr, hv] at h
          · refine ⟨v, rfl, by simpa using hv, ?_⟩
            by_cases he : cur = jsTrimCh v
            · rw [he]
            · simp [releaseLock, jsFalsyStr, hv, he] at h
    · rintro ⟨v, rfl, hv, rfl⟩
      have hv2 : v.isEmpty = false := by simpa using hv
      simp [releaseLock, jsFalsyStr, hv2]
  · intro h
    match lv with
    | none => simp [releaseLock, jsFalsyStr]
    | some v =>
      by_cases hv : v.isEmpty
      · simp [releaseLock, jsFalsyStr, hv]
      · match st with
        | none => simp [releaseLock, jsFalsyStr, hv]
        | some cur =>
          by_cases he : cur = jsTrimCh v
          · simp [releaseLock, jsFalsyStr, hv, he] at h
          · simp [releaseLock, jsFalsyStr, hv, he]

/-- C7 witness: a mismatched release at concrete values returns `false` and
leaves the stored value unchanged. -/
theorem releaseLock_characterization_witness :
    (releaseLock (some "abc".data) (some "zzz".data)).2 = some "abc".data :=
  (releaseLock_characterization (some "abc".data) (some "zzz".data)).2 (by decide)

/-! ### Claim C8: cache semantics of the lookup -/

/-- C8: a cached literal `'null'` yields `NotFound` with no index query and
no cache write; a corrupted cache entry is treated as a miss — the index is
queried and the fresh result (or the `'null'` marker) is written back with
the 48-hour TTL — likewise for an absent entry; a parseable cached payload
is returned without a write; the TTL is 172800 seconds; and a cache-write
failure never changes the returned result. -/
theorem lookupWithCache_spec (entries : List (Int × OutRec)) (q : Int)
    (p : List (String × List String)) (w : Bool) :
    lookupWithCache entries q (some .nullMark) w = ⟨none, false, none, false⟩ ∧
    lookupWithCache entries q (some .bad) w =
      ⟨lookupFresh entries q, true,
        some (encodeResult (lookupFresh entries q), cacheTTL), !w⟩ ∧
    lookupWithCache entries q none w =
      ⟨lookupFresh entries q, true,
        some (encodeResult (lookupFresh entries q), cacheTTL), !w⟩ ∧
    lookupWithCache entries q (some (.good p)) w = ⟨some p, false, none, false⟩ ∧
    cacheTTL = 172800 ∧
    (∀ c, (lookupWithCache entries q c true).result =
      (lookupWithCache entries q c false).result) := by
  refine ⟨rfl, rfl, rfl, rfl, rfl, fun c => ?_⟩
  match c with
  | none => rfl
  | some .nullMark => rfl
  | some (.good p) => rfl
  | some .bad => rfl

/-! ### Claim C10: a process never treats its own live lock as stale -/

/-- C10: when the stored lock value's leading `-`-separated field parses to
the current process's own PID, `isLockStale` returns `false`, and
`acquireLock` invoked by the holder neither deletes nor re-acquires the
lock — it returns `false` with the stored value unchanged. -/
theorem own_lock_never_stale (v : List Char) (selfPid : Int) (alive : Int → Bool)
    (nv : List Char)
    (h : jsParseInt10 ((splitOnChar '-' (jsTrimCh v)).headD []) = some selfPid) :
    isLockStale (some v) selfPid alive = false ∧
    acquireLock (some v) selfPid alive nv = (false, some v) := by
  have hs : isLockStale (some v) selfPid alive = false := by
    simp only [isLockStale, h]
    simp
  exact ⟨hs, by simp only [acquireLock]; simp [hs]⟩

/-- C10 witness: a lock value recording PID 1234 probed by the very process
with PID 1234. -/
theorem own_lock_never_stale_witness :
    isLockStale (some "1234-99".data) 1234 (fun _ => false) = false ∧
    acquireLock (some "1234-99".data) 1234 (fun _ => false) "1234-100".data =
      (false, some "1234-99".data) :=
  own_lock_never_stale "1234-99".data 1234 (fun _ => false) "1234-100".data (by decide)

/-! ### Claim C9: merger validation and CSV swap -/

/-- C9 counterexample: a merged CSV whose tenth data line is malformed but
whose first nine data lines are well formed passes validation, so validation
success does not require the first ten data lines to be well formed. -/
theorem c9_counterexample :
    validateCsvFile (some c9pass) = true ∧
    (((fileLines c9pass).drop 1).take 10).all dataLineOkB = false ∧
    10 ≤ ((fileLines c9pass).drop 1).length := by
  decide

/-- C9 (amended): validation succeeds only if the file exists, its size is
at least the validator's 20-byte minimum-header threshold, the header line
is present, there is at least one data line, and each of the first nine data
lines splits into exactly three `|`-separated fields whose first two parse
as integers; on validation failure the update fails, and on success the live
CSV (if present) is renamed to `.backup` and the temporary file is renamed
into place. -/
theorem validateCsv_merger (content : List Char) (fs : FsState) :
    validateCsvFile none = false ∧
    (validateCsvFile (some content) = true →
      20 ≤ content.length ∧
      headerOkB ((fileLines content).headD []) = true ∧
      2 ≤ (fileLines content).length ∧
      ∀ l ∈ ((fileLines content).drop 1).take 9, dataLineOkB l = true) ∧
    (validateCsvFile (some content) = false →
      processStep content fs = .error "CSV validation failed") ∧
    (validateCsvFile (some content) = true →
      processStep content fs =
        .ok { live := some content,
              backup := (match fs.live with
                         | some c => some c
                         | none => fs.backup) }) := by
  refine ⟨rfl, fun h => ?_, fun h => ?_, fun h => ?_⟩
  · simp only [validateCsvFile] at h
    split_ifs at h with h0 h20
    simp only [Bool.and_eq_true, List.all_eq_true, decide_eq_true_eq] at h
    exact ⟨by omega, h.1.1, h.2, h.1.2⟩
  · simp [processStep, h]
  · simp [processStep, h]

/-- C9 witness: the amended statement applied at the concrete passing CSV
and a live file present on disk. -/
theorem validateCsv_merger_witness :
    processStep c9pass ⟨some "old".data, none⟩ =
      .ok { live := some c9pass, backup := some "old".data } :=
  (validateCsv_merger c9pass ⟨some "old".data, none⟩).2.2.2 (by decide)

/-! ### Basic facts about the event order and the event list -/

theorem eventLE_refl (x : Event) : eventLE x x := Or.inr ⟨rfl, id⟩

theorem eventLE_n_le {x y : Event} (h : eventLE x y) : x.n ≤ y.n := by
  rcases h with h | ⟨h, _⟩
  · exact le_of_lt h
  · exact le_of_eq h

theorem eventLE_lt_of_end_start {x y : Event} (h : eventLE x y)
    (hx : x.e = true) (hy : y.e = false) : x.n < y.n := by
  rcases h with h | ⟨h, he⟩
  · exact h
  · rw [hx, hy] at he
    exact absurd (he rfl) (by simp)

theorem n_le_segN (ev : Event) : ev.n ≤ segN ev := by
  unfold segN; split <;> omega

theorem segN_le_succ (ev : Event) : segN ev ≤ ev.n + 1 := by
  unfold segN; split <;> omega

theorem segM_le_n (ev : Event) : segM ev ≤ ev.n := by
  unfold segM; split <;> omega

theorem segN_eq_segM_add_one (ev : Event) : segN ev = segM ev + 1 := by
  unfold segN segM; split <;> omega

theorem segN_mono {x y : Event} (h : eventLE x y) : segN x ≤ segN y := by
  rcases h with h | ⟨h, he⟩
  · have := segN_le_succ x
    have := n_le_segN y
    omega
  · unfold segN
    cases hx : x.e <;> cases hy : y.e <;> simp_all

theorem mem_eventsOf {ev : Event} {rs : List InputRec} :
    ev ∈ eventsOf rs ↔ ∃ r ∈ rs, ev = startEv r ∨ ev = endEv r := by
  induction rs with
  | nil => simp [eventsOf]
  | cons r rs ih =>
      simp only [eventsOf, List.mem_cons, ih]
      constructor
      · rintro (h | h | ⟨r2, hr2, h⟩)
        · exact ⟨r, Or.inl rfl, Or.inl h⟩
        · exact ⟨r, Or.inl rfl, Or.inr h⟩
        · exact ⟨r2, Or.inr hr2, h⟩
      · rintro ⟨r2, (rfl | hr2), h⟩
        · rcases h with h | h
          · exact Or.inl h
          · exact Or.inr (Or.inl h)
        · exact Or.inr (Or.inr ⟨r2, hr2, h⟩)

theorem startEv_mem_eventsOf {r : InputRec} {rs : List InputRec} (h : r ∈ rs) :
    startEv r ∈ eventsOf rs :=
  mem_eventsOf.2 ⟨r, h, Or.inl rfl⟩

theorem endEv_mem_eventsOf {r : InputRec} {rs : List InputRec} (h : r ∈ rs) :
    endEv r ∈ eventsOf rs :=
  mem_eventsOf.2 ⟨r, h, Or.inr rfl⟩

theorem startEv_ne_endEv (r1 r2 : InputRec) : startEv r1 ≠ endEv r2 := by
  intro h
  have := congrArg Event.e h
  simp [startEv, endEv] at this

theorem count_eventsOf (rs : List InputRec) (ev : Event) :
    (eventsOf rs).count ev = startsAt rs ev + endsAt rs ev := by
  induction rs with
  | nil => simp [eventsOf, startsAt, endsAt]
  | cons r rs ih =>
      simp only [eventsOf, List.count_cons, startsAt, endsAt, List.countP_cons,
        beq_iff_eq, decide_eq_true_eq] at ih ⊢
      by_cases hs : startEv r = ev <;> by_cases he : endEv r = ev
      all_goals try simp only [hs, he, if_true, if_false, ite_true, ite_false]
      all_goals try simp [hs, he]
      all_goals omega

/-! ### countP utilities -/

theorem countP_congr_mem {α : Type} {l : List α} {p q : α → Bool}
    (h : ∀ a ∈ l, p a = q a) : l.countP p = l.countP q := by
  induction l with
  | nil => rfl
  | cons a l ih =>
      simp only [List.countP_cons]
      rw [ih (fun b hb => h b (List.mem_cons_of_mem a hb)), h a (List.mem_cons_self a l)]

theorem countP_or_disjoint {α : Type} {l : List α} {p q : α → Bool}
    (h : ∀ a ∈ l, ¬(p a = true ∧ q a = true)) :
    l.countP (fun a => p a || q a) = l.countP p + l.countP q := by
  induction l with
  | nil => rfl
  | cons a l ih =>
      have ha := h a (List.mem_cons_self a l)
      simp only [List.countP_cons]
      rw [ih (fun b hb => h b (List.mem_cons_of_mem a hb))]
      by_cases hp : p a = true <;> by_cases hq : q a = true <;>
        simp [hp, hq] at ha ⊢ <;> omega

theorem countP_le_one_of_pairwise {α : Type} {l : List α} {R : α → α → Prop}
    (hp : l.Pairwise R) {p : α → Bool}
    (h : ∀ a b, p a = true → p b = true → R a b → False) : l.countP p ≤ 1 := by
  induction l with
  | nil => simp
  | cons a l ih =>
      rcases List.pairwise_cons.1 hp with ⟨ha, hl⟩
      simp only [List.countP_cons]
      by_cases hpa : p a = true
      · have hz : l.countP p = 0 :=
          List.countP_eq_zero.2 (fun b hb hpb => h a b hpa hpb (ha b hb))
        simp [hpa, hz]
      · simpa [hpa] using ih hl

/-! ### No duplicate events under the disjointness proviso -/

theorem eventsOf_nodup {inputs : List InputRec}
    (hv : ∀ r ∈ inputs, r.start_int ≤ r.end_int)
    (hdisj : SameTagDisjoint inputs) : (eventsOf inputs).Nodup := by
  induction inputs with
  | nil => simp [eventsOf]
  | cons r rs ih =>
      rcases List.pairwise_cons.1 hdisj with ⟨hr, hrs⟩
      have hvr := hv r (List.mem_cons_self r rs)
      have hvs : ∀ r2 ∈ rs, r2.start_int ≤ r2.end_int :=
        fun r2 h2 => hv r2 (List.mem_cons_of_mem r h2)
      simp only [eventsOf, List.nodup_cons]
      refine ⟨?_, ?_, ih hvs hrs⟩
      · simp only [List.mem_cons]
        rintro (h | h)
        · exact startEv_ne_endEv r r h
        · rcases mem_eventsOf.1 h with ⟨r2, hr2, h2 | h2⟩
          · have hn := congrArg Event.n h2
            have ha := congrArg Event.a h2
            simp [startEv] at hn ha
            have hv2 := hvs r2 hr2
            rcases hr r2 hr2 ha with hlt | hlt <;> omega
          · exact absurd h2 (startEv_ne_endEv r r2)
      · intro h
        rcases mem_eventsOf.1 h with ⟨r2, hr2, h2 | h2⟩
        · exact absurd h2.symm (startEv_ne_endEv r2 r)
        · have hn := congrArg Event.n h2
          have ha := congrArg Event.a h2
          simp [endEv] at hn ha
          have hv2 := hvs r2 hr2
          rcases hr r2 hr2 ha with hlt | hlt <;> omega

/-! ### Sorted-split and no-duplicate extraction -/

theorem decide_or_eq {p q : Prop} [Decidable p] [Decidable q] :
    decide (p ∨ q) = (decide p || decide q) := by
  by_cases hp : p <;> by_cases hq : q <;> simp [hp, hq]

theorem done_le_cur {done todo : List Event} {cur : Event}
    (hsort : List.Sorted eventLE (done ++ cur :: todo)) :
    ∀ a ∈ done ++ [cur], eventLE a cur := by
  intro a ha
  rcases List.mem_append.1 ha with ha | ha
  · exact (List.pairwise_append.1 hsort).2.2 a ha cur (List.mem_cons_self cur todo)
  · rw [List.mem_singleton.1 ha]
    exact eventLE_refl cur

theorem cur_le_pending {done todo : List Event} {cur : Event}
    (hsort : List.Sorted eventLE (done ++ cur :: todo)) :
    ∀ b ∈ cur :: todo, eventLE cur b := by
  intro b hb
  rcases List.mem_cons.1 hb with hb | hb
  · rw [hb]; exact eventLE_refl cur
  · exact List.rel_of_pairwise_cons (List.pairwise_append.1 hsort).2.1 hb

theorem cur_notin_done {done todo : List Event} {cur : Event}
    (hnodup : (done ++ cur :: todo).Nodup) : cur ∉ done := by
  intro h
  exact (List.nodup_append.1 hnodup).2.2 h (List.mem_cons_self cur todo)

theorem cur_notin_todo {done todo : List Event} {cur : Event}
    (hnodup : (done ++ cur :: todo).Nodup) : cur ∉ todo :=
  (List.nodup_cons.1 (List.nodup_append.1 hnodup).2.1).1

/-! ### Side conditions from sortedness -/

theorem endEv_mem_todo_of_startEv_eq_cur {inputs : List InputRec}
    {done todo : List Event} {cur : Event}
    (hv : ∀ r ∈ inputs, r.start_int ≤ r.end_int)
    (hperm : (done ++ cur :: todo).Perm (eventsOf inputs))
    (hsort : List.Sorted eventLE (done ++ cur :: todo))
    {r : InputRec} (hr : r ∈ inputs) (heq : startEv r = cur) : endEv r ∈ todo := by
  have hmem : endEv r ∈ done ++ cur :: todo :=
    hperm.mem_iff.2 (endEv_mem_eventsOf hr)
  rcases List.mem_append.1 hmem with hmem | hmem
  · have hle := (List.pairwise_append.1 hsort).2.2 _ hmem cur (List.mem_cons_self cur todo)
    have hlt := eventLE_lt_of_end_start hle rfl (by rw [← heq]; rfl)
    rw [← heq] at hlt
    simp [startEv, endEv] at hlt
    have := hv r hr
    omega
  · rcases List.mem_cons.1 hmem with hmem | hmem
    · exact absurd (hmem.trans heq.symm).symm (startEv_ne_endEv r r)
    · exact hmem

theorem startEv_mem_done_of_endEv_eq_cur {inputs : List InputRec}
    {done todo : List Event} {cur : Event}
    (hv : ∀ r ∈ inputs, r.start_int ≤ r.end_int)
    (hperm : (done ++ cur :: todo).Perm (eventsOf inputs))
    (hsort : List.Sorted eventLE (done ++ cur :: todo))
    {r : InputRec} (hr : r ∈ inputs) (heq : endEv r = cur) : startEv r ∈ done := by
  have hmem : startEv r ∈ done ++ cur :: todo :=
    hperm.mem_iff.2 (startEv_mem_eventsOf hr)
  rcases List.mem_append.1 hmem with hmem | hmem
  · exact hmem
  · rcases List.mem_cons.1 hmem with hmem | hmem
    · exact absurd (hmem.trans heq.symm) (startEv_ne_endEv r r)
    · have hle := List.rel_of_pairwise_cons (List.pairwise_append.1 hsort).2.1 hmem
      have hlt := eventLE_lt_of_end_start hle (by rw [← heq]; rfl) rfl
      rw [← heq] at hlt
      simp [startEv, endEv] at hlt
      have := hv r hr
      omega

/-! ### Event multiplicity at a given event -/

theorem startsAt_eq_one {inputs : List InputRec} {done todo : List Event} {cur : Event}
    (hperm : (done ++ cur :: todo).Perm (eventsOf inputs))
    (hnodup : (done ++ cur :: todo).Nodup)
    (hcur : cur.e = false) : startsAt inputs cur = 1 := by
  have hcnt : (done ++ cur :: todo).count cur = 1 :=
    List.count_eq_one_of_mem hnodup (List.mem_append.2 (Or.inr (List.mem_cons_self cur todo)))
  have hc2 : (eventsOf inputs).count cur = 1 := by
    rw [← hperm.count_eq]
    exact hcnt
  rw [count_eventsOf] at hc2
  have hz : endsAt inputs cur = 0 := by
    apply List.countP_eq_zero.2
    intro r _ hfalse
    simp only [decide_eq_true_eq] at hfalse
    have := congrArg Event.e hfalse
    simp [endEv, hcur] at this
  omega

theorem endsAt_eq_one {inputs : List InputRec} {done todo : List Event} {cur : Event}
    (hperm : (done ++ cur :: todo).Perm (eventsOf inputs))
    (hnodup : (done ++ cur :: todo).Nodup)
    (hcur : cur.e = true) : endsAt inputs cur = 1 := by
  have hcnt : (done ++ cur :: todo).count cur = 1 :=
    List.count_eq_one_of_mem hnodup (List.mem_append.2 (Or.inr (List.mem_cons_self cur todo)))
  have hc2 : (eventsOf inputs).count cur = 1 := by
    rw [← hperm.count_eq]
    exact hcnt
  rw [count_eventsOf] at hc2
  have hz : startsAt inputs cur = 0 := by
    apply List.countP_eq_zero.2
    intro r _ hfalse
    simp only [decide_eq_true_eq] at hfalse
    have := congrArg Event.e hfalse
    simp [startEv, hcur] at this
  omega

/-! ### Invariant transition: one event moves from pending to processed -/

theorem countOpen_step_start {inputs : List InputRec} {done todo : List Event} {cur : Event}
    (hv : ∀ r ∈ inputs, r.start_int ≤ r.end_int)
    (hperm : (done ++ cur :: todo).Perm (eventsOf inputs))
    (hsort : List.Sorted eventLE (done ++ cur :: todo))
    (hnodup : (done ++ cur :: todo).Nodup)
    (hcur : cur.e = false) (t : Tag) :
    countOpen inputs (done ++ [cur]) todo t
      = countOpen inputs done (cur :: todo) t + (if cur.a = t then 1 else 0) := by
  unfold countOpen
  have hpt : ∀ r ∈ inputs,
      (decide (openAt (done ++ [cur]) todo r ∧ r.list = t))
        = ((decide (openAt done (cur :: todo) r ∧ r.list = t)) ||
           (decide (startEv r = cur ∧ r.list = t))) := by
    intro r hr
    rw [← decide_or_eq]
    apply decide_eq_decide.mpr
    constructor
    · rintro ⟨⟨hs, he⟩, hl⟩
      rcases List.mem_append.1 hs with hs | hs
      · exact Or.inl ⟨⟨hs, List.mem_cons_of_mem cur he⟩, hl⟩
      · exact Or.inr ⟨List.mem_singleton.1 hs, hl⟩
    · rintro (⟨⟨hs, he⟩, hl⟩ | ⟨hs, hl⟩)
      · refine ⟨⟨List.mem_append.2 (Or.inl hs), ?_⟩, hl⟩
        rcases List.mem_cons.1 he with he | he
        · have := congrArg Event.e he
          simp [endEv, hcur] at this
        · exact he
      · exact ⟨⟨List.mem_append.2 (Or.inr (List.mem_singleton.2 hs)),
          endEv_mem_todo_of_startEv_eq_cur hv hperm hsort hr hs⟩, hl⟩
  rw [countP_congr_mem hpt, countP_or_disjoint ?disj]
  case disj =>
    intro r _ hboth
    obtain ⟨h1, h2⟩ := hboth
    simp only [decide_eq_true_eq] at h1 h2
    exact cur_notin_done hnodup (h2.1 ▸ h1.1.1)
  congr 1
  by_cases hta : cur.a = t
  · rw [if_pos hta]
    have hsimp : ∀ r ∈ inputs,
        (decide (startEv r = cur ∧ r.list = t)) = (decide (startEv r = cur)) := by
      intro r _
      apply decide_eq_decide.mpr
      constructor
      · exact fun h => h.1
      · intro h
        refine ⟨h, ?_⟩
        have ha : r.list = cur.a := congrArg Event.a h
        rw [ha, hta]
    rw [countP_congr_mem hsimp]
    exact startsAt_eq_one hperm hnodup hcur
  · rw [if_neg hta]
    apply List.countP_eq_zero.2
    intro r _ hfalse
    simp only [decide_eq_true_eq] at hfalse
    obtain ⟨hs, hl⟩ := hfalse
    have ha : r.list = cur.a := congrArg Event.a hs
    exact hta (ha ▸ hl)

theorem countOpen_step_end {inputs : List InputRec} {done todo : List Event} {cur : Event}
    (hv : ∀ r ∈ inputs, r.start_int ≤ r.end_int)
    (hperm : (done ++ cur :: todo).Perm (eventsOf inputs))
    (hsort : List.Sorted eventLE (done ++ cur :: todo))
    (hnodup : (done ++ cur :: todo).Nodup)
    (hcur : cur.e = true) (t : Tag) :
    countOpen inputs done (cur :: todo) t
      = countOpen inputs (done ++ [cur]) todo t + (if cur.a = t then 1 else 0) := by
  unfold countOpen
  have hpt : ∀ r ∈ inputs,
      (decide (openAt done (cur :: todo) r ∧ r.list = t))
        = ((decide (openAt (done ++ [cur]) todo r ∧ r.list = t)) ||
           (decide (endEv r = cur ∧ r.list = t))) := by
    intro r hr
    rw [← decide_or_eq]
    apply decide_eq_decide.mpr
    constructor
    · rintro ⟨⟨hs, he⟩, hl⟩
      rcases List.mem_cons.1 he with he | he
      · exact Or.inr ⟨he, hl⟩
      · exact Or.inl ⟨⟨List.mem_append.2 (Or.inl hs), he⟩, hl⟩
    · rintro (⟨⟨hs, he⟩, hl⟩ | ⟨he, hl⟩)
      · refine ⟨⟨?_, List.mem_cons_of_mem cur he⟩, hl⟩
        rcases List.mem_append.1 hs with hs | hs
        · exact hs
        · have := congrArg Event.e (List.mem_singleton.1 hs)
          simp [startEv, hcur] at this
      · exact ⟨⟨startEv_mem_done_of_endEv_eq_cur hv hperm hsort hr he,
          List.mem_cons.2 (Or.inl he)⟩, hl⟩
  rw [countP_congr_mem hpt, countP_or_disjoint ?disj]
  case disj =>
    intro r _ hboth
    obtain ⟨h1, h2⟩ := hboth
    simp only [decide_eq_true_eq] at h1 h2
    exact cur_notin_todo hnodup (h2.1 ▸ h1.1.2)
  congr 1
  by_cases hta : cur.a = t
  · rw [if_pos hta]
    have hsimp : ∀ r ∈ inputs,
        (decide (endEv r = cur ∧ r.list = t)) = (decide (endEv r = cur)) := by
      intro r _
      apply decide_eq_decide.mpr
      constructor
      · exact fun h => h.1
      · intro h
        refine ⟨h, ?_⟩
        have ha : r.list = cur.a := congrArg Event.a h
        rw [ha, hta]
    rw [countP_congr_mem hsimp]
    exact endsAt_eq_one hperm hnodup hcur
  · rw [if_neg hta]
    apply List.countP_eq_zero.2
    intro r _ hfalse
    simp only [decide_eq_true_eq] at hfalse
    obtain ⟨hs, hl⟩ := hfalse
    have ha : r.list = cur.a := congrArg Event.a hs
    exact hta (ha ▸ hl)

theorem inv_step {inputs : List InputRec} {done todo : List Event} {cur : Event}
    {s : List Tag}
    (hv : ∀ r ∈ inputs, r.start_int ≤ r.end_int)
    (hperm : (done ++ cur :: todo).Perm (eventsOf inputs))
    (hsort : List.Sorted eventLE (done ++ cur :: todo))
    (hnodup : (done ++ cur :: todo).Nodup)
    (hinv : ∀ t, s.count t = countOpen inputs done (cur :: todo) t) :
    ∀ t, (stepActive s cur).count t = countOpen inputs (done ++ [cur]) todo t := by
  intro t
  by_cases hcur : cur.e = false
  · rw [stepActive, if_pos hcur, List.count_append, hinv t, List.count_singleton',
      countOpen_step_start hv hperm hsort hnodup hcur t]
  · have hcur2 : cur.e = true := by revert hcur; cases cur.e <;> simp
    rw [stepActive, if_neg hcur, List.count_erase, hinv t]
    have hstep := countOpen_step_end hv hperm hsort hnodup hcur2 t
    simp only [beq_iff_eq]
    by_cases hat : cur.a = t <;> simp [hat] at hstep ⊢ <;> omega

/-! ### At most one open row per tag -/

theorem open_covers_boundary {done todo : List Event} {cur : Event}
    (hsort : List.Sorted eventLE (done ++ cur :: todo))
    {r : InputRec} (hopen : openAt (done ++ [cur]) todo r) :
    r.start_int ≤ cur.n ∧ cur.n ≤ r.end_int := by
  obtain ⟨hs, he⟩ := hopen
  constructor
  · have hle := done_le_cur hsort (startEv r) hs
    exact eventLE_n_le hle
  · have hle := cur_le_pending hsort (endEv r) (List.mem_cons_of_mem cur he)
    exact eventLE_n_le hle

theorem countOpen_le_one {inputs : List InputRec} {done todo : List Event} {cur : Event}
    (hdisj : SameTagDisjoint inputs)
    (hsort : List.Sorted eventLE (done ++ cur :: todo)) (t : Tag) :
    countOpen inputs (done ++ [cur]) todo t ≤ 1 := by
  apply countP_le_one_of_pairwise hdisj
  intro a b hpa hpb hR
  simp only [decide_eq_true_eq] at hpa hpb
  obtain ⟨hoa, hla⟩ := hpa
  obtain ⟨hob, hlb⟩ := hpb
  have hca := open_covers_boundary hsort hoa
  have hcb := open_covers_boundary hsort hob
  rcases hR (hla.trans hlb.symm) with hlt | hlt <;> omega

/-! ### The in-place Set collapse is the identity on duplicate-free lists -/

theorem jsSetDedupAux_eq_self {s : List Tag} (h : s.Nodup) :
    ∀ seen : List Tag, (∀ t ∈ s, t ∉ seen) → jsSetDedupAux seen s = s := by
  induction s with
  | nil => intro seen _; rfl
  | cons t ts ih =>
      intro seen hseen
      rcases List.nodup_cons.1 h with ⟨hts, hnd⟩
      rw [jsSetDedupAux, if_neg (hseen t (List.mem_cons_self t ts))]
      congr 1
      apply ih hnd
      intro u hu
      simp only [List.mem_cons]
      rintro (rfl | hu2)
      · exact hts hu
      · exact hseen u (List.mem_cons_of_mem t hu) hu2

theorem jsSetDedup_eq_self {s : List Tag} (h : s.Nodup) : jsSetDedup s = s :=
  jsSetDedupAux_eq_self h [] (fun _ _ => List.not_mem_nil _)

/-! ### Membership bridges between the active list and open rows -/

theorem mem_active_iff_open {inputs : List InputRec} {done todo : List Event}
    {s : List Tag}
    (hinv : ∀ t, s.count t = countOpen inputs done todo t) (t : Tag) :
    t ∈ s ↔ ∃ r ∈ inputs, openAt done todo r ∧ r.list = t := by
  rw [← List.count_pos_iff (a := t) (l := s), hinv t]
  unfold countOpen
  rw [List.countP_pos_iff]
  constructor
  · rintro ⟨r, hr, hp⟩
    simp only [decide_eq_true_eq] at hp
    exact ⟨r, hr, hp⟩
  · rintro ⟨r, hr, hp⟩
    exact ⟨r, hr, by simp only [decide_eq_true_eq]; exact hp⟩

theorem active_ne_nil_iff {inputs : List InputRec} {done todo : List Event}
    {s : List Tag}
    (hinv : ∀ t, s.count t = countOpen inputs done todo t) :
    s ≠ [] ↔ ∃ r ∈ inputs, openAt done todo r := by
  constructor
  · intro hne
    obtain ⟨t, ht⟩ := List.exists_mem_of_ne_nil s hne
    obtain ⟨r, hr, ho, _⟩ := (mem_active_iff_open hinv t).1 ht
    exact ⟨r, hr, ho⟩
  · rintro ⟨r, hr, ho⟩
    have : r.list ∈ s := (mem_active_iff_open hinv r.list).2 ⟨r, hr, ho, rfl⟩
    exact List.ne_nil_of_mem this

/-! ### Openness coincides with coverage on the current segment -/

theorem open_iff_covers {inputs : List InputRec} {done todo2 : List Event}
    {cur nex : Event}
    (hv : ∀ r ∈ inputs, r.start_int ≤ r.end_int)
    (hperm : (done ++ cur :: nex :: todo2).Perm (eventsOf inputs))
    (hsort : List.Sorted eventLE (done ++ cur :: nex :: todo2))
    {x : Int} (hx1 : segN cur ≤ x) (hx2 : x ≤ segM nex)
    {r : InputRec} (hr : r ∈ inputs) :
    openAt (done ++ [cur]) (nex :: todo2) r ↔ covers r x := by
  have hsort2 : List.Sorted eventLE ((done ++ [cur]) ++ nex :: todo2) := by
    simpa using hsort
  constructor
  · rintro ⟨hs, he⟩
    constructor
    · have hle := done_le_cur hsort (startEv r) hs
      have h1 := eventLE_n_le hle
      have h2 := n_le_segN cur
      simp only [startEv] at h1
      omega
    · have hle := cur_le_pending hsort2 (endEv r) he
      have h1 := eventLE_n_le hle
      have h2 := segM_le_n nex
      simp only [endEv] at h1
      omega
  · rintro ⟨hc1, hc2⟩
    have hsm : startEv r ∈ done ++ cur :: nex :: todo2 :=
      hperm.mem_iff.2 (startEv_mem_eventsOf hr)
    have hem : endEv r ∈ done ++ cur :: nex :: todo2 :=
      hperm.mem_iff.2 (endEv_mem_eventsOf hr)
    constructor
    · -- the start event must already be processed
      rcases List.mem_append.1 hsm with hs | hs
      · exact List.mem_append.2 (Or.inl hs)
      · rcases List.mem_cons.1 hs with hs | hs
        · exact List.mem_append.2 (Or.inr (List.mem_singleton.2 hs))
        · exfalso
          have hle := cur_le_pending hsort2 (startEv r) hs
          have hnex : segM nex < r.start_int := by
            by_cases hne : nex.e = false
            · have h1 := eventLE_n_le hle
              simp only [startEv] at h1
              unfold segM
              rw [if_pos hne]
              omega
            · have hne2 : nex.e = true := by revert hne; cases nex.e <;> simp
              have h1 := eventLE_lt_of_end_start hle hne2 rfl
              simp only [startEv] at h1
              unfold segM
              rw [if_neg (by simp [hne2])]
              omega
          omega
    · -- the end event must still be pending
      rcases List.mem_append.1 hem with he | he
      · exfalso
        have hle := (List.pairwise_append.1 hsort).2.2 _ he cur
          (List.mem_cons_self cur (nex :: todo2))
        have hend : r.end_int < segN cur := by
          by_cases hce : cur.e = false
          · have h1 := eventLE_lt_of_end_start hle rfl hce
            simp only [endEv] at h1
            unfold segN
            rw [if_pos hce]
            omega
          · have hce2 : cur.e = true := by revert hce; cases cur.e <;> simp
            have h1 := eventLE_n_le hle
            simp only [endEv] at h1
            unfold segN
            rw [if_neg (by simp [hce2])]
            omega
        omega
      · rcases List.mem_cons.1 he with he | he
        · exfalso
          have hce : cur.e = true := by
            have := congrArg Event.e he
            simpa [endEv] using this.symm
          have hn : cur.n = r.end_int := by
            have := congrArg Event.n he
            simpa [endEv] using this.symm
          have : segN cur = r.end_int + 1 := by
            unfold segN
            rw [if_neg (by simp [hce])]
            omega
          omega
        · exact he

/-! ### The master coverage lemma for the sweep loop -/

theorem flattenGo_covers {inputs : List InputRec}
    (hv : ∀ r ∈ inputs, r.start_int ≤ r.end_int)
    (hdisj : SameTagDisjoint inputs) :
    ∀ (todo done : List Event) (cur : Event) (s : List Tag),
      (done ++ cur :: todo).Perm (eventsOf inputs) →
      List.Sorted eventLE (done ++ cur :: todo) →
      (done ++ cur :: todo).Nodup →
      (∀ t, s.count t = countOpen inputs done (cur :: todo) t) →
      ∀ x : Int, (∃ rec ∈ flattenGo s (cur :: todo), inRec rec x) ↔
        (segN cur ≤ x ∧ ∃ r ∈ inputs, covers r x) := by
  intro todo
  induction todo with
  | nil =>
      intro done cur s hperm _hsort _hnodup _hinv x
      simp only [flattenGo]
      constructor
      · rintro ⟨rec, hrec, _⟩
        exact absurd hrec (List.not_mem_nil rec)
      · rintro ⟨hx, r, hr, hc1, hc2⟩
        have hem : endEv r ∈ done ++ [cur] :=
          hperm.mem_iff.2 (endEv_mem_eventsOf hr)
        rcases List.mem_append.1 hem with he | he
        · have hle := (List.pairwise_append.1 _hsort).2.2 _ he cur
            (List.mem_cons_self cur [])
          by_cases hce : cur.e = false
          · have h1 := eventLE_lt_of_end_start hle rfl hce
            simp only [endEv] at h1
            have h2 : segN cur = cur.n := by unfold segN; rw [if_pos hce]
            omega
          · have hce2 : cur.e = true := by revert hce; cases cur.e <;> simp
            have h1 := eventLE_n_le hle
            simp only [endEv] at h1
            have h2 : segN cur = cur.n + 1 := by
              unfold segN; rw [if_neg (by simp [hce2])]
            omega
        · rcases List.mem_cons.1 he with he | he
          · have hce : cur.e = true := by
              have := congrArg Event.e he
              simpa [endEv] using this.symm
            have hn : cur.n = r.end_int := by
              have := congrArg Event.n he
              simpa [endEv] using this.symm
            have h2 : segN cur = cur.n + 1 := by
              unfold segN; rw [if_neg (by simp [hce])]
            omega
          · exact absurd he (List.not_mem_nil _)
  | cons nex todo2 ih =>
      intro done cur s hperm hsort hnodup hinv x
      have hassoc : (done ++ [cur]) ++ nex :: todo2 = done ++ cur :: nex :: todo2 := by
        simp
      have hperm2 : ((done ++ [cur]) ++ nex :: todo2).Perm (eventsOf inputs) := by
        rw [hassoc]; exact hperm
      have hsort2 : List.Sorted eventLE ((done ++ [cur]) ++ nex :: todo2) := by
        rw [hassoc]; exact hsort
      have hnodup2 : ((done ++ [cur]) ++ nex :: todo2).Nodup := by
        rw [hassoc]; exact hnodup
      have hinv1 : ∀ t, (stepActive s cur).count t
          = countOpen inputs (done ++ [cur]) (nex :: todo2) t :=
        inv_step hv hperm hsort hnodup hinv
      have hle1 : ∀ t, countOpen inputs (done ++ [cur]) (nex :: todo2) t ≤ 1 :=
        fun t => countOpen_le_one hdisj hsort t
      have hnd1 : (stepActive s cur).Nodup :=
        List.nodup_iff_count_le_one.2 (fun t => by rw [hinv1 t]; exact hle1 t)
      have hded : jsSetDedup (stepActive s cur) = stepActive s cur :=
        jsSetDedup_eq_self hnd1
      have hcurnex : eventLE cur nex :=
        cur_le_pending hsort nex
          (List.mem_cons_of_mem cur (List.mem_cons_self nex todo2))
      have hIH := ih (done ++ [cur]) nex (stepActive s cur) hperm2 hsort2 hnodup2 hinv1
      simp only [flattenGo]
      by_cases hg : segN cur ≤ segM nex ∧ stepActive s cur ≠ []
      · rw [if_pos hg, hded]
        constructor
        · rintro ⟨rec, hrec, hx⟩
          rcases List.mem_cons.1 hrec with rfl | hrec
          · obtain ⟨r, hr, ho⟩ := (active_ne_nil_iff hinv1).1 hg.2
            exact ⟨hx.1, r, hr,
              (open_iff_covers hv hperm hsort hx.1 hx.2 hr).1 ho⟩
          · obtain ⟨hx2, hcov⟩ := (hIH x).1 ⟨rec, hrec, hx⟩
            exact ⟨le_trans (segN_mono hcurnex) hx2, hcov⟩
        · rintro ⟨hx1, r, hr, hcov⟩
          by_cases hxm : x ≤ segM nex
          · have ho := (open_iff_covers hv hperm hsort hx1 hxm hr).2 hcov
            refine ⟨⟨segN cur, segM nex, buildData (stepActive s cur)⟩,
              List.mem_cons_self _ _, hx1, hxm⟩
          · have hx2 : segN nex ≤ x := by
              have := segN_eq_segM_add_one nex
              omega
            obtain ⟨rec, hrec, hxr⟩ := (hIH x).2 ⟨hx2, r, hr, hcov⟩
            exact ⟨rec, List.mem_cons_of_mem _ hrec, hxr⟩
      · rw [if_neg hg]
        constructor
        · intro h
          obtain ⟨hx2, hcov⟩ := (hIH x).1 h
          exact ⟨le_trans (segN_mono hcurnex) hx2, hcov⟩
        · rintro ⟨hx1, r, hr, hcov⟩
          apply (hIH x).2
          refine ⟨?_, r, hr, hcov⟩
          rcases not_and_or.1 hg with hnm | hs1
          · have := segN_eq_segM_add_one nex
            omega
          · have hnil : stepActive s cur = [] := not_not.1 hs1
            by_contra hlt
            have hxm : x ≤ segM nex := by
              have := segN_eq_segM_add_one nex
              omega
            have ho := (open_iff_covers hv hperm hsort hx1 hxm hr).2 hcov
            have hmem : r.list ∈ stepActive s cur :=
              (mem_active_iff_open hinv1 r.list).2 ⟨r, hr, ho, rfl⟩
            rw [hnil] at hmem
            exact absurd hmem (List.not_mem_nil _)

/-! ### Output records are chained left to right -/

theorem flattenGo_lo_bound :
    ∀ (todo : List Event) (cur : Event) (s : List Tag),
      List.Sorted eventLE (cur :: todo) →
      ∀ rec ∈ flattenGo s (cur :: todo), segN cur ≤ rec.n := by
  intro todo
  induction todo with
  | nil =>
      intro cur s _ rec hrec
      simp [flattenGo] at hrec
  | cons nex todo2 ih =>
      intro cur s hsort rec hrec
      have hcn : eventLE cur nex :=
        List.rel_of_pairwise_cons hsort (List.mem_cons_self nex todo2)
      have hsort2 : List.Sorted eventLE (nex :: todo2) := (List.pairwise_cons.1 hsort).2
      simp only [flattenGo] at hrec
      by_cases hg : segN cur ≤ segM nex ∧ stepActive s cur ≠ []
      · rw [if_pos hg] at hrec
        rcases List.mem_cons.1 hrec with rfl | hrec
        · exact le_refl _
        · exact le_trans (segN_mono hcn) (ih nex _ hsort2 rec hrec)
      · rw [if_neg hg] at hrec
        exact le_trans (segN_mono hcn) (ih nex _ hsort2 rec hrec)

theorem flattenGo_chain :
    ∀ (l : List Event) (s : List Tag),
      List.Sorted eventLE l →
      List.Pairwise (fun a b => a.m < b.n) (flattenGo s l) := by
  intro l
  induction l with
  | nil => intro s _; simp [flattenGo]
  | cons cur rest ih =>
      intro s hsort
      cases rest with
      | nil => simp [flattenGo]
      | cons nex todo2 =>
          have hsort2 : List.Sorted eventLE (nex :: todo2) := (List.pairwise_cons.1 hsort).2
          simp only [flattenGo]
          by_cases hg : segN cur ≤ segM nex ∧ stepActive s cur ≠ []
          · rw [if_pos hg]
            refine List.Pairwise.cons ?_ (ih _ hsort2)
            intro rec hrec
            have h1 := flattenGo_lo_bound todo2 nex _ hsort2 rec hrec
            have h2 := segN_eq_segM_add_one nex
            simp only
            omega
          · rw [if_neg hg]
            exact ih _ hsort2

theorem flattenGo_n_le_m :
    ∀ (l : List Event) (s : List Tag), ∀ rec ∈ flattenGo s l, rec.n ≤ rec.m := by
  intro l
  induction l with
  | nil => intro s rec hrec; simp [flattenGo] at hrec
  | cons cur rest ih =>
      intro s rec hrec
      cases rest with
      | nil => simp [flattenGo] at hrec
      | cons nex todo2 =>
          simp only [flattenGo] at hrec
          by_cases hg : segN cur ≤ segM nex ∧ stepActive s cur ≠ []
          · rw [if_pos hg] at hrec
            rcases List.mem_cons.1 hrec with rfl | hrec
            · exact hg.1
            · exact ih _ rec hrec
          · rw [if_neg hg] at hrec
            exact ih _ rec hrec

/-! ### Claim C1: disjointness and union preservation -/

/-- C1 counterexample: the rows `[1,10,T]` and `[2,5,T]` (the same tag on two
overlapping intervals) flatten to records covering only `[1,5]` — coordinate
7 is covered by an input but by no output record, so the union of the output
is not the union of the inputs.  The in-place `new Set` collapse of the
active list discards the second open occurrence of `T`. -/
theorem c1_counterexample :
    (∃ r ∈ exC1, covers r 7) ∧
    ¬(∃ rec ∈ flattenRecs exC1, inRec rec 7) ∧
    flattenRecs exC1 =
      [⟨1, 1, [("list", ["T"])]⟩, ⟨2, 5, [("list", ["T"])]⟩] := by
  decide

/-- C1 (amended): for inputs in which no two rows carrying the identical tag
have intersecting intervals, the flattener emits pairwise disjoint records
whose union over the coordinates equals the union of the input intervals. -/
theorem flatten_disjoint_union (inputs : List InputRec)
    (hv : ∀ r ∈ inputs, r.start_int ≤ r.end_int)
    (hdisj : SameTagDisjoint inputs) :
    List.Pairwise (fun r1 r2 => ∀ x : Int, ¬(inRec r1 x ∧ inRec r2 x))
      (flattenRecs inputs) ∧
    (∀ x : Int, (∃ rec ∈ flattenRecs inputs, inRec rec x) ↔
      ∃ r ∈ inputs, covers r x) := by
  have hsorted := List.sorted_insertionSort eventLE (eventsOf inputs)
  have hperm := List.perm_insertionSort eventLE (eventsOf inputs)
  constructor
  · have hchain := flattenGo_chain (sortEvents (eventsOf inputs)) [] hsorted
    refine List.Pairwise.imp ?_ hchain
    intro a b hab x hx
    obtain ⟨⟨ha1, ha2⟩, hb1, hb2⟩ := hx
    omega
  · intro x
    cases hevs : sortEvents (eventsOf inputs) with
    | nil =>
        have hnilev : eventsOf inputs = [] := by
          have h2 := hperm
          rw [sortEvents] at hevs
          rw [hevs] at h2
          exact (List.Perm.symm h2).eq_nil
        have hinputs : inputs = [] := by
          cases inputs with
          | nil => rfl
          | cons r rs => simp [eventsOf] at hnilev
        subst hinputs
        constructor
        · rintro ⟨rec, hrec, _⟩
          simp [flattenRecs, flatten, sortEvents, eventsOf, List.insertionSort,
            flattenGo] at hrec
        · rintro ⟨r, hr, _⟩
          exact absurd hr (List.not_mem_nil r)
    | cons cur todo =>
        have hperm2 : (([] : List Event) ++ cur :: todo).Perm (eventsOf inputs) := by
          rw [List.nil_append, ← hevs]
          exact hperm
        have hsort2 : List.Sorted eventLE (([] : List Event) ++ cur :: todo) := by
          rw [List.nil_append, ← hevs]
          exact hsorted
        have hnodup2 : (([] : List Event) ++ cur :: todo).Nodup := by
          rw [List.nil_append, ← hevs]
          exact hperm.nodup_iff.2 (eventsOf_nodup hv hdisj)
        have hinv0 : ∀ t, ([] : List Tag).count t
            = countOpen inputs [] (cur :: todo) t := by
          intro t
          simp only [List.count_nil]
          symm
          apply List.countP_eq_zero.2
          intro r _ hp
          simp only [decide_eq_true_eq] at hp
          exact absurd hp.1.1 (List.not_mem_nil _)
        have hmaster :=
          flattenGo_covers hv hdisj todo [] cur [] hperm2 hsort2 hnodup2 hinv0 x
        have hlhs : flattenRecs inputs = flattenGo [] (cur :: todo) := by
          rw [flattenRecs, flatten, hevs]
        rw [hlhs, hmaster]
        constructor
        · rintro ⟨_, hcov⟩
          exact hcov
        · rintro ⟨r, hr, hcov⟩
          refine ⟨?_, r, hr, hcov⟩
          have hsm : startEv r ∈ ([] : List Event) ++ cur :: todo :=
            hperm2.mem_iff.2 (startEv_mem_eventsOf hr)
          have hle : eventLE cur (startEv r) := cur_le_pending hsort2 _ hsm
          by_cases hce : cur.e = false
          · have h1 := eventLE_n_le hle
            simp only [startEv] at h1
            have h2 : segN cur = cur.n := by unfold segN; rw [if_pos hce]
            have := hcov.1
            omega
          · have hce2 : cur.e = true := by revert hce; cases cur.e <;> simp
            have h1 := eventLE_lt_of_end_start hle hce2 rfl
            simp only [startEv] at h1
            have h2 : segN cur = cur.n + 1 := by
              unfold segN; rw [if_neg (by simp [hce2])]
            have := hcov.1
            omega

/-- C1 witness: the amended statement at two overlapping rows with distinct
tags, instantiated at coordinate 7. -/
theorem flatten_disjoint_union_witness :
    (∃ rec ∈ flattenRecs exC2W, inRec rec 7) ↔ ∃ r ∈ exC2W, covers r 7 :=
  (flatten_disjoint_union exC2W (by decide) (by decide)).2 7

/-! ### Payload of each emitted record -/

theorem flattenGo_payload {inputs : List InputRec}
    (hv : ∀ r ∈ inputs, r.start_int ≤ r.end_int)
    (hdisj : SameTagDisjoint inputs) :
    ∀ (todo done : List Event) (cur : Event) (s : List Tag),
      (done ++ cur :: todo).Perm (eventsOf inputs) →
      List.Sorted eventLE (done ++ cur :: todo) →
      (done ++ cur :: todo).Nodup →
      (∀ t, s.count t = countOpen inputs done (cur :: todo) t) →
      ∀ rec ∈ flattenGo s (cur :: todo),
        ∃ sA : List Tag, rec.data = buildData sA ∧ sA.Nodup ∧
          ∀ x : Int, inRec rec x →
            ∀ t : Tag, (t ∈ sA ↔ ∃ r ∈ inputs, covers r x ∧ r.list = t) := by
  intro todo
  induction todo with
  | nil =>
      intro done cur s _ _ _ _ rec hrec
      simp [flattenGo] at hrec
  | cons nex todo2 ih =>
      intro done cur s hperm hsort hnodup hinv rec hrec
      have hassoc : (done ++ [cur]) ++ nex :: todo2 = done ++ cur :: nex :: todo2 := by
        simp
      have hperm2 : ((done ++ [cur]) ++ nex :: todo2).Perm (eventsOf inputs) := by
        rw [hassoc]; exact hperm
      have hsort2 : List.Sorted eventLE ((done ++ [cur]) ++ nex :: todo2) := by
        rw [hassoc]; exact hsort
      have hnodup2 : ((done ++ [cur]) ++ nex :: todo2).Nodup := by
        rw [hassoc]; exact hnodup
      have hinv1 : ∀ t, (stepActive s cur).count t
          = countOpen inputs (done ++ [cur]) (nex :: todo2) t :=
        inv_step hv hperm hsort hnodup hinv
      have hle1 : ∀ t, countOpen inputs (done ++ [cur]) (nex :: todo2) t ≤ 1 :=
        fun t => countOpen_le_one hdisj hsort t
      have hnd1 : (stepActive s cur).Nodup :=
        List.nodup_iff_count_le_one.2 (fun t => by rw [hinv1 t]; exact hle1 t)
      have hded : jsSetDedup (stepActive s cur) = stepActive s cur :=
        jsSetDedup_eq_self hnd1
      simp only [flattenGo] at hrec
      by_cases hg : segN cur ≤ segM nex ∧ stepActive s cur ≠ []
      · rw [if_pos hg, hded] at hrec
        rcases List.mem_cons.1 hrec with rfl | hrec
        · refine ⟨stepActive s cur, rfl, hnd1, ?_⟩
          intro x hx t
          rw [mem_active_iff_open hinv1 t]
          constructor
          · rintro ⟨r, hr, ho, hl⟩
            exact ⟨r, hr, (open_iff_covers hv hperm hsort hx.1 hx.2 hr).1 ho, hl⟩
          · rintro ⟨r, hr, hcov, hl⟩
            exact ⟨r, hr, (open_iff_covers hv hperm hsort hx.1 hx.2 hr).2 hcov, hl⟩
        · exact ih (done ++ [cur]) nex (stepActive s cur) hperm2 hsort2 hnodup2 hinv1
            rec hrec
      · rw [if_neg hg] at hrec
        exact ih (done ++ [cur]) nex (stepActive s cur) hperm2 hsort2 hnodup2 hinv1
          rec hrec

/-! ### The payload object groups the active tags by type -/

theorem getType_nil (ty : String) : getType [] ty = [] := rfl

theorem getType_cons_eq {k ty : String} (v : List String)
    (ds : List (String × List String)) (h : k = ty) :
    getType ((k, v) :: ds) ty = v := by
  have hb : (k == ty) = true := by simp [h]
  simp [getType, List.find?, hb]

theorem getType_cons_ne {k ty : String} (v : List String)
    (ds : List (String × List String)) (h : k ≠ ty) :
    getType ((k, v) :: ds) ty = getType ds ty := by
  have hb : (k == ty) = false := by simp [h]
  simp [getType, List.find?, hb]

theorem getType_pushTag (d : List (String × List String)) (ty2 j ty : String) :
    getType (pushTag d ty2 j) ty
      = if ty = ty2 then getType d ty ++ [j] else getType d ty := by
  induction d with
  | nil =>
      by_cases h : ty = ty2
      · subst h
        rw [if_pos rfl]
        rw [show pushTag [] ty j = [(ty, [j])] from rfl]
        rw [getType_cons_eq [j] [] rfl, getType_nil]
        rfl
      · rw [if_neg h]
        rw [show pushTag [] ty2 j = [(ty2, [j])] from rfl]
        rw [getType_cons_ne [j] [] (fun hh => h hh.symm)]
  | cons kv ds ih =>
      obtain ⟨k, v⟩ := kv
      by_cases hk : k = ty2
      · rw [show pushTag ((k, v) :: ds) ty2 j = (k, v ++ [j]) :: ds from by
          simp [pushTag, hk]]
        by_cases hty : ty = k
        · rw [getType_cons_eq (v ++ [j]) ds hty.symm, getType_cons_eq v ds hty.symm,
            if_pos (hty.trans hk)]
        · rw [getType_cons_ne (v ++ [j]) ds (fun hh => hty hh.symm),
            getType_cons_ne v ds (fun hh => hty hh.symm),
            if_neg (fun hh => hty (hh.trans hk.symm))]
      · rw [show pushTag ((k, v) :: ds) ty2 j = (k, v) :: pushTag ds ty2 j from by
          simp [pushTag, hk]]
        by_cases hty : ty = k
        · rw [getType_cons_eq v (pushTag ds ty2 j) hty.symm,
            if_neg (fun hh => hk (hty.symm.trans hh)),
            getType_cons_eq v ds hty.symm]
        · rw [getType_cons_ne v (pushTag ds ty2 j) (fun hh => hty hh.symm),
            getType_cons_ne v ds (fun hh => hty hh.symm), ih]

theorem getType_buildData_aux :
    ∀ (s : List Tag) (d : List (String × List String)) (ty : String),
      getType (s.foldl (fun d t => pushTag d t.type t.rest) d) ty
        = getType d ty ++ (s.filter (fun t => t.type == ty)).map Tag.rest := by
  intro s
  induction s with
  | nil => intro d ty; simp
  | cons t ts ih =>
      intro d ty
      simp only [List.foldl_cons, List.filter_cons]
      rw [ih]
      by_cases h : t.type = ty
      · have hb : (t.type == ty) = true := by simp [h]
        rw [hb, getType_pushTag, if_pos h.symm]
        simp
      · have hb : (t.type == ty) = false := by simp [h]
        rw [hb, getType_pushTag, if_neg (fun hh => h hh.symm)]
        simp

theorem getType_buildData (s : List Tag) (ty : String) :
    getType (buildData s) ty = (s.filter (fun t => t.type == ty)).map Tag.rest := by
  rw [buildData, getType_buildData_aux]
  rfl

theorem mem_getType_buildData {s : List Tag} {ty j : String} :
    j ∈ getType (buildData s) ty ↔ ∃ t ∈ s, t.type = ty ∧ t.rest = j := by
  rw [getType_buildData]
  simp only [List.mem_map, List.mem_filter, beq_iff_eq]
  constructor
  · rintro ⟨t, ⟨ht, hty⟩, hrest⟩
    exact ⟨t, ht, hty, hrest⟩
  · rintro ⟨t, ht, hty, hrest⟩
    exact ⟨t, ⟨ht, hty⟩, hrest⟩

theorem getType_buildData_nodup {s : List Tag} (h : s.Nodup) (ty : String) :
    (getType (buildData s) ty).Nodup := by
  rw [getType_buildData]
  apply List.Nodup.map_on ?_ (h.filter _)
  intro t1 h1 t2 h2 heq
  have e1 := (List.mem_filter.1 h1).2
  have e2 := (List.mem_filter.1 h2).2
  simp only [beq_iff_eq] at e1 e2
  cases t1
  cases t2
  simp_all

/-! ### Claim C2: payload exactness -/

/-- C2 counterexample: with rows `[1,10,T]`, `[2,5,T]`, `[3,8,U]` the
flattener emits a record covering 7 whose payload contains only `U`, yet the
input `[1,10,T]` also covers 7 — the payload is not the set of input tags
covering the coordinate. -/
theorem c2_counterexample :
    ∃ rec ∈ flattenRecs exC2, inRec rec 7 ∧
      (∃ r ∈ exC2, covers r 7 ∧ r.list = ⟨"list", "T"⟩) ∧
      "T" ∉ getType rec.data "list" := by
  decide

/-- C2 (amended): for inputs in which no two rows carrying the identical tag
have intersecting intervals, every emitted record's payload is, at each
covered coordinate, exactly the set of input tags whose intervals contain
that coordinate, grouped by tag type with the type field stripped, and no
tag appears twice within a type list. -/
theorem flatten_payload_exact (inputs : List InputRec)
    (hv : ∀ r ∈ inputs, r.start_int ≤ r.end_int)
    (hdisj : SameTagDisjoint inputs) :
    ∀ rec ∈ flattenRecs inputs, ∀ x : Int, inRec rec x →
      (∀ ty j, j ∈ getType rec.data ty ↔
        ∃ r ∈ inputs, covers r x ∧ r.list = ⟨ty, j⟩) ∧
      (∀ ty, (getType rec.data ty).Nodup) := by
  intro rec hrec x hx
  have hsorted := List.sorted_insertionSort eventLE (eventsOf inputs)
  have hperm := List.perm_insertionSort eventLE (eventsOf inputs)
  cases hevs : sortEvents (eventsOf inputs) with
  | nil =>
      exfalso
      have : flattenRecs inputs = [] := by
        rw [flattenRecs, flatten, hevs]
        rfl
      rw [this] at hrec
      exact absurd hrec (List.not_mem_nil rec)
  | cons cur todo =>
      have hperm2 : (([] : List Event) ++ cur :: todo).Perm (eventsOf inputs) := by
        rw [List.nil_append, ← hevs]
        exact hperm
      have hsort2 : List.Sorted eventLE (([] : List Event) ++ cur :: todo) := by
        rw [List.nil_append, ← hevs]
        exact hsorted
      have hnodup2 : (([] : List Event) ++ cur :: todo).Nodup := by
        rw [List.nil_append, ← hevs]
        exact hperm.nodup_iff.2 (eventsOf_nodup hv hdisj)
      have hinv0 : ∀ t, ([] : List Tag).count t
          = countOpen inputs [] (cur :: todo) t := by
        intro t
        simp only [List.count_nil]
        symm
        apply List.countP_eq_zero.2
        intro r _ hp
        simp only [decide_eq_true_eq] at hp
        exact absurd hp.1.1 (List.not_mem_nil _)
      have hrec2 : rec ∈ flattenGo [] (cur :: todo) := by
        rw [flattenRecs, flatten, hevs] at hrec
        exact hrec
      obtain ⟨sA, hdata, hnd, hcover⟩ :=
        flattenGo_payload hv hdisj todo [] cur [] hperm2 hsort2 hnodup2 hinv0 rec hrec2
      constructor
      · intro ty j
        rw [hdata, mem_getType_buildData]
        constructor
        · rintro ⟨t, ht, hty, hrest⟩
          obtain ⟨r, hr, hcov, hl⟩ := (hcover x hx t).1 ht
          refine ⟨r, hr, hcov, ?_⟩
          rw [hl]
          cases t
          simp_all
        · rintro ⟨r, hr, hcov, hl⟩
          have ht : r.list ∈ sA := (hcover x hx r.list).2 ⟨r, hr, hcov, rfl⟩
          exact ⟨r.list, ht, by rw [hl], by rw [hl]⟩
      · intro ty
        rw [hdata]
        exact getType_buildData_nodup hnd ty

/-- C2 witness: in the flattening of `[1,10,T]`, `[3,8,U]` the record
`[3,8]` contains coordinate 5, and its `list`-type payload entry `T`
corresponds to the covering input. -/
theorem flatten_payload_exact_witness :
    "T" ∈ getType (⟨3, 8, [("list", ["T", "U"])]⟩ : OutRec).data "list" ↔
      ∃ r ∈ exC2W, covers r 5 ∧ r.list = ⟨"list", "T"⟩ :=
  ((flatten_payload_exact exC2W (by decide) (by decide)
    ⟨3, 8, [("list", ["T", "U"])]⟩ (by decide) 5 (by decide)).1 "list" "T")

/-! ### The loader's entries are sorted by score -/

theorem loadEntries_sorted (inputs : List InputRec) :
    List.Sorted scoreLE (loadEntries inputs) := by
  have hchain := flattenGo_chain (sortEvents (eventsOf inputs)) []
    (List.sorted_insertionSort eventLE (eventsOf inputs))
  have hnm := flattenGo_n_le_m (sortEvents (eventsOf inputs)) []
  rw [loadEntries]
  refine List.pairwise_map.2 (List.Pairwise.imp_of_mem ?_ hchain)
  intro a b _ hbmem hab
  have := hnm b hbmem
  unfold scoreLE
  simp only
  omega

theorem zsetOf_loadEntries (inputs : List InputRec) :
    zsetOf (loadEntries inputs) = loadEntries inputs :=
  List.Sorted.insertionSort_eq (loadEntries_sorted inputs)

theorem head_filter_of_chain {q : Int} :
    ∀ (l : List OutRec), List.Pairwise (fun a b => a.m < b.n) l →
      ∀ rec ∈ l, rec.n ≤ q → q ≤ rec.m →
      ((l.map (fun r => (r.m, r))).filter (fun e => decide (q ≤ e.1))).head?
        = some (rec.m, rec) := by
  intro l
  induction l with
  | nil =>
      intro _ rec hmem
      exact absurd hmem (List.not_mem_nil rec)
  | cons a t ih =>
      intro hchain rec hmem hq1 hq2
      rcases List.mem_cons.1 hmem with rfl | hmem
      · have hb : (decide (q ≤ rec.m)) = true := by simp [hq2]
        simp only [List.map_cons, List.filter_cons, hb]
        rfl
      · have hlt : a.m < rec.n := List.rel_of_pairwise_cons hchain hmem
        have hb : (decide (q ≤ a.m)) = false := by
          simp only [decide_eq_false_iff_not]
          omega
        simp only [List.map_cons, List.filter_cons, hb]
        exact ih (List.pairwise_cons.1 hchain).2 rec hmem hq1 hq2

theorem zlowest_loadEntries {inputs : List InputRec} {q : Int} {rec : OutRec}
    (hmem : rec ∈ flattenRecs inputs) (hq1 : rec.n ≤ q) (hq2 : q ≤ rec.m) :
    zlowest (loadEntries inputs) q = some (rec.m, rec) := by
  unfold zlowest
  rw [zsetOf_loadEntries]
  rw [loadEntries]
  apply head_filter_of_chain _ ?_ rec hmem hq1 hq2
  exact flattenGo_chain (sortEvents (eventsOf inputs)) []
    (List.sorted_insertionSort eventLE (eventsOf inputs))

theorem zlowest_mem {entries : List (Int × OutRec)} {q : Int} {p : Int × OutRec}
    (h : zlowest entries q = some p) : p ∈ entries := by
  unfold zlowest at h
  cases hf : (zsetOf entries).filter (fun e => decide (q ≤ e.1)) with
  | nil => rw [hf] at h; exact absurd h (by simp)
  | cons e es =>
      rw [hf] at h
      have he : e = p := by
        simpa using h
      subst he
      have hmem : e ∈ (zsetOf entries).filter (fun e2 => decide (q ≤ e2.1)) := by
        rw [hf]
        exact List.mem_cons_self e es
      have : e ∈ zsetOf entries := (List.mem_filter.1 hmem).1
      exact (List.perm_insertionSort scoreLE entries).subset this

/-! ### Claim C3: the lookup engine -/

/-- C3 counterexample: for the single input row `[1,5]` with a `cloud`-type
tag, the unique output record contains `q = 3`, but the lookup does not
return that record's payload — it returns the payload with an extra empty
`list` entry added by `if (!result.list) result.list = []`. -/
theorem c3_counterexample :
    ∃ rec ∈ flattenRecs exC3, inRec rec 3 ∧
      lookupFresh (loadEntries exC3) 3 ≠ some rec.data := by
  decide

/-- C3 (amended): each record is stored at score `end_int`; for a valid
dotted-quad IP with integer form `q`, when some flattener output record
contains `q` the lookup returns that record's payload with an empty `list`
entry ensured, and `NotFound` when no record contains `q`; in particular,
whenever the lowest-score-`≥ q` member does not satisfy `s ≤ q ≤ e`, the
lookup returns `NotFound`. -/
theorem lookup_engine_spec (inputs : List InputRec) (o1 o2 o3 o4 : Nat) (q : Int)
    (h1 : o1 < 256) (h2 : o2 < 256) (h3 : o3 < 256) (h4 : o4 < 256)
    (hq : q = (ip2int o1 o2 o3 o4 : Int)) :
    (∀ e ∈ loadEntries inputs, e.1 = e.2.m) ∧
    (∀ rec ∈ flattenRecs inputs, inRec rec q →
      lookupFresh (loadEntries inputs) q = some (ensureList rec.data)) ∧
    ((∀ rec ∈ flattenRecs inputs, ¬inRec rec q) →
      lookupFresh (loadEntries inputs) q = none) ∧
    (∀ (entries : List (Int × OutRec)) (p : Int × OutRec),
      zlowest entries q = some p → ¬(p.2.n ≤ q ∧ q ≤ p.2.m) →
      lookupFresh entries q = none) := by
  refine ⟨?_, ?_, ?_, ?_⟩
  · intro e he
    rw [loadEntries] at he
    obtain ⟨r, _, rfl⟩ := List.mem_map.1 he
    rfl
  · intro rec hmem hin
    unfold lookupFresh
    rw [zlowest_loadEntries hmem hin.1 hin.2]
    simp only
    exact if_pos ⟨hin.1, hin.2⟩
  · intro hno
    cases hz : zlowest (loadEntries inputs) q with
    | none =>
        unfold lookupFresh
        rw [hz]
    | some p =>
        have hpm := zlowest_mem hz
        rw [loadEntries] at hpm
        obtain ⟨r, hr, hrp⟩ := List.mem_map.1 hpm
        unfold lookupFresh
        rw [hz]
        simp only
        have hpr : p.2 = r := by rw [← hrp]
        have hnr : ¬(p.2.n ≤ q ∧ q ≤ p.2.m) := by
          rw [hpr]
          exact hno r hr
        rw [if_neg hnr]
  · intro entries p hz hni
    unfold lookupFresh
    rw [hz]
    simp only
    rw [if_neg hni]

/-- C3 witness: for the single `cloud`-tagged row with `q = 3 =
ip2int 0 0 0 3`, the lookup returns the record's payload with the `list`
entry ensured, and the stored score of the single entry equals its end. -/
theorem lookup_engine_spec_witness :
    lookupFresh (loadEntries exC3) 3
      = some (ensureList (⟨1, 5, [("cloud", ["X"])]⟩ : OutRec).data) :=
  (lookup_engine_spec exC3 0 0 0 3 3 (by decide) (by decide) (by decide) (by decide)
    (by decide)).2.1 ⟨1, 5, [("cloud", ["X"])]⟩ (by decide) (by decide)
